import Mathlib

/-!
Verification of `schedulers.go`: a shallow embedding of the CPU-scheduling
drivers (FCFS, SJF non-preemptive, SJF-Priority preemptive) and proofs about
their observable behavior.

Modelling conventions, justified against the Go source:

* Go `int64`/`int` fields become `Int`.  No arithmetic in the claims depends
  on 64-bit wraparound, so overflow is not modelled.
* `Process.ProcessID` is declared `string` in the Go struct but the source
  also computes `process.ProcessID - 1` as a slice index in `SJFSchedule`
  (line 124), an arithmetic use; the embedding follows the arithmetic use and
  keeps ids as `Int`.  Table cells are produced with `fmt.Sprint`, whose
  decimal rendering of integers is injective, so table rows keep the integer
  values rather than strings.
* The `float64` accumulators `totalWait`, `totalTurnaround`, `lastCompletion`
  only ever receive integer increments; they are modelled as `Int` and the
  final float divisions (`total / count`, `count / lastCompletion`) are kept
  as numerator/denominator pairs, so a zero divisor (an IEEE NaN in Go) is
  directly observable.
* `sort.SliceStable(remaining, byArrivalTime)` (a stable ascending sort by
  arrival, Go `less` is `<`) is modelled by the stable `List.insertionSort`
  with the total relation `ArrivalTime ≤ ArrivalTime`; a stable sort's
  output is unique, so this computes the same list.  `sort.Slice` in
  `SJFPrioritySchedule` is an unstable sort by `Burst <`; it is modelled
  with the stable sort by `Burst ≤`.  Any sort
  the Go runtime picks agrees with it up to the order of entries with equal
  bursts, and concrete counterexample inputs below use pairwise-distinct
  bursts, for which (entries in the waiting slice always carry an original,
  never a decremented, burst, so equal-burst entries coming from one process
  are identical values) the sorted list is unique.
* Mutation is made explicit.  In `SJFPrioritySchedule` the Go code appends
  *value copies* of `processes[i]` to `waiting` and takes `active =
  &waiting[0]` followed by `waiting = waiting[1:]`: from then on the active
  element sits before the start of the `waiting` slice, so later appends and
  sorts never touch it, and all writes through `active` land in a copy that
  is dropped when the active slot is cleared.  The embedding therefore keeps
  `active : Option Process1` as an owned value and never writes back to the
  caller's list, mirroring the aliasing of the Go code exactly.
* Loops whose iteration count is not structural (`SJFSchedule`'s
  idle-advancing loop, `SJFPrioritySchedule`'s tick loop) take a fuel
  parameter; running out of fuel is a distinguished outcome and termination
  is proved as: some fuel avoids it.  A Go runtime panic (out-of-range slice
  write in `SJFSchedule`) is the distinguished outcome `panicked`.
* `dispatched` (in `SJFState`) and `finishLog` (in `P1State`) are ghost
  fields: they record which ids have been dispatched resp. which completion
  events happened, are written exactly where the modelled events happen, and
  are read by no modelled code, so they do not alter behavior.
* The presentation helpers `outputTitle`/`outputGantt`/`outputSchedule` are
  not part of this source file (the spec lists rendering as an external
  collaborator); the drivers here return the structures the Go code would
  hand to them.
-/

/-- `Process` struct of schedulers.go (lines 10-15). -/
structure Process where
  ProcessID     : Int
  ArrivalTime   : Int
  BurstDuration : Int
  Priority      : Int
deriving DecidableEq, Repr

/-- `TimeSlice` struct of schedulers.go (lines 16-20): one Gantt entry. -/
structure TimeSlice where
  PID   : Int
  Start : Int
  Stop  : Int
deriving DecidableEq, Repr

/-- One row of the schedule table (lines 53-61 / 124-132): the values passed
to `fmt.Sprint` in column order. -/
structure Row where
  pid        : Int
  prio       : Int
  burst      : Int
  arrival    : Int
  waiting    : Int
  turnaround : Int
  completion : Int
deriving DecidableEq, Repr

/-- The local variables of `FCFSSchedule` (lines 30-38).  `waitingTime` is
declared outside the loop, so its value persists across iterations: this is
load-bearing (line 40 only reassigns it when `ArrivalTime > 0`). -/
structure FCFSAcc where
  serviceTime     : Int
  waitingTime     : Int
  totalWait       : Int
  totalTurnaround : Int
  lastCompletion  : Int
  schedule        : List Row
  gantt           : List TimeSlice
deriving DecidableEq, Repr

def fcfsInit : FCFSAcc :=
  { serviceTime := 0, waitingTime := 0, totalWait := 0, totalTurnaround := 0
    lastCompletion := 0, schedule := [], gantt := [] }

/-- Lines 40-42: the next value of the persistent `waitingTime` variable,
given the current clock and its previous value. -/
def fcfsWaitNext (clock w : Int) (p : Process) : Int :=
  if p.ArrivalTime > 0 then clock - p.ArrivalTime else w

/-- The table row lines 53-61 build for process `p` at service clock `clock`
with incoming persistent waiting value `w`: `turnaround = burst + waiting`
(line 47) and `completion = burst + arrival + waiting` (line 50). -/
def fcfsRow (clock w : Int) (p : Process) : Row :=
  let w1 := fcfsWaitNext clock w p
  { pid := p.ProcessID, prio := p.Priority, burst := p.BurstDuration
    arrival := p.ArrivalTime, waiting := w1
    turnaround := p.BurstDuration + w1
    completion := p.BurstDuration + p.ArrivalTime + w1 }

/-- One iteration of the `for i := range processes` loop of `FCFSSchedule`
(lines 39-69). -/
def fcfsStep (st : FCFSAcc) (p : Process) : FCFSAcc :=
  let waitingTime := fcfsWaitNext st.serviceTime st.waitingTime p
  { serviceTime := st.serviceTime + p.BurstDuration
    waitingTime := waitingTime
    totalWait := st.totalWait + waitingTime
    totalTurnaround := st.totalTurnaround + (p.BurstDuration + waitingTime)
    lastCompletion := p.BurstDuration + p.ArrivalTime + waitingTime
    schedule := st.schedule ++ [fcfsRow st.serviceTime st.waitingTime p]
    gantt := st.gantt ++
      [{ PID := p.ProcessID, Start := waitingTime + p.ArrivalTime
         Stop := st.serviceTime + p.BurstDuration }] }

def fcfsGo : FCFSAcc → List Process → FCFSAcc
  | st, [] => st
  | st, p :: rest => fcfsGo (fcfsStep st p) rest

/-- `FCFSSchedule` (lines 29-79), returning the structures it would render. -/
def FCFSSchedule (processes : List Process) : FCFSAcc :=
  fcfsGo fcfsInit processes

/-- The aggregate statistics of lines 71-74: `aveWait = totalWait/count`,
`aveTurnaround = totalTurnaround/count`, `aveThroughput = count/lastCompletion`,
kept as numerator/denominator pairs (float64 division in Go; denominator 0
yields NaN there). -/
structure Metrics where
  waitNum       : Int
  turnaroundNum : Int
  count         : Nat
  throughputDen : Int
deriving DecidableEq, Repr

def fcfsMetrics (processes : List Process) : Metrics :=
  let st := FCFSSchedule processes
  { waitNum := st.totalWait, turnaroundNum := st.totalTurnaround
    count := processes.length, throughputDen := st.lastCompletion }

/-- `byArrivalTime` (lines 93-95) as the total order `sort.SliceStable`
sorts by: ascending arrival. -/
def byArrivalTime (p1 p2 : Process) : Prop :=
  p1.ArrivalTime ≤ p2.ArrivalTime

instance : DecidableRel byArrivalTime :=
  fun a b => inferInstanceAs (Decidable (a.ArrivalTime ≤ b.ArrivalTime))

instance : IsTotal Process byArrivalTime :=
  ⟨fun a b => Int.le_total a.ArrivalTime b.ArrivalTime⟩

instance : IsTrans Process byArrivalTime :=
  ⟨fun _ _ _ h1 h2 => le_trans h1 h2⟩

/-- `findShortestJob`'s scan (lines 153-164): walks `remaining` carrying the
shortest job seen (`shortest`, here `acc`), and `break`s at the first process
whose arrival is in the future. -/
def findShortestJobAux : List Process → Int → Option Process → Option Process
  | [], _, acc => acc
  | p :: rest, serviceTime, acc =>
    if p.ArrivalTime > serviceTime then acc
    else
      match acc with
      | none => findShortestJobAux rest serviceTime (some p)
      | some s =>
        if p.BurstDuration < s.BurstDuration then
          findShortestJobAux rest serviceTime (some p)
        else
          findShortestJobAux rest serviceTime (some s)

/-- `findShortestJob` (lines 153-164). -/
def findShortestJob (remaining : List Process) (serviceTime : Int) : Option Process :=
  findShortestJobAux remaining serviceTime none

/-- `removeProcess` (lines 166-174): keeps every entry whose `ProcessID`
differs from the dispatched process's (all entries sharing that id go). -/
def removeProcess (processes : List Process) (process : Process) : List Process :=
  processes.filter (fun q => q.ProcessID ≠ process.ProcessID)

def ids (processes : List Process) : List Int :=
  processes.map (·.ProcessID)

/-- The local state of `SJFSchedule`'s loop (lines 82-91).  `schedule` slots
start as `none` (Go: `make([][]string, n)` of nil rows); `dispatched` is a
ghost trace of the ids dispatched so far. -/
structure SJFState where
  remaining       : List Process
  serviceTime     : Int
  totalWait       : Int
  totalTurnaround : Int
  lastCompletion  : Int
  schedule        : List (Option Row)
  gantt           : List TimeSlice
  dispatched      : List Int
deriving DecidableEq, Repr

inductive SJFOutcome where
  | outOfFuel (st : SJFState)
  | panicked  (st : SJFState) (pid : Int)
  | done      (st : SJFState)
deriving DecidableEq, Repr

def sjfInit (processes : List Process) : SJFState :=
  { remaining := List.insertionSort byArrivalTime processes
    serviceTime := 0, totalWait := 0, totalTurnaround := 0, lastCompletion := 0
    schedule := List.replicate processes.length none
    gantt := [], dispatched := [] }

/-- Lines 110-113: `waitingTime = serviceTime - arrival`, clamped at 0. -/
def sjfWaiting (st : SJFState) (process : Process) : Int :=
  if st.serviceTime - process.ArrivalTime < 0 then 0
  else st.serviceTime - process.ArrivalTime

/-- The table row of lines 124-132: `turnaround = burst + waiting`
(line 118), `completion = burst + serviceTime` (line 121). -/
def sjfRow (st : SJFState) (process : Process) : Row :=
  { pid := process.ProcessID, prio := process.Priority
    burst := process.BurstDuration, arrival := process.ArrivalTime
    waiting := sjfWaiting st process
    turnaround := process.BurstDuration + sjfWaiting st process
    completion := process.BurstDuration + st.serviceTime }

/-- Lines 107-140 once a job is selected and the table write is in range:
remove all pool entries with its id, accumulate the totals, write the row at
index `ProcessID - 1`, append the Gantt slice, advance the clock by the
burst. -/
def sjfDispatch (st : SJFState) (process : Process) : SJFState :=
  { remaining := removeProcess st.remaining process
    serviceTime := st.serviceTime + process.BurstDuration
    totalWait := st.totalWait + sjfWaiting st process
    totalTurnaround := st.totalTurnaround + (process.BurstDuration + sjfWaiting st process)
    lastCompletion := process.BurstDuration + st.serviceTime
    schedule := st.schedule.set (process.ProcessID - 1).toNat (some (sjfRow st process))
    gantt := st.gantt ++
      [{ PID := process.ProcessID, Start := st.serviceTime
         Stop := process.BurstDuration + st.serviceTime }]
    dispatched := st.dispatched ++ [process.ProcessID] }

/-- The body of one `for len(remaining) > 0` iteration of `SJFSchedule`
(lines 100-140): an idle tick (line 103), a dispatch, or — when the write
`schedule[process.ProcessID-1] = ...` (line 124) indexes out of range — a Go
runtime panic, reported as `.inr` with the offending id. -/
def sjfStep (st : SJFState) : SJFState ⊕ Int :=
  match findShortestJob st.remaining st.serviceTime with
  | none => .inl { st with serviceTime := st.serviceTime + 1 }
  | some process =>
    if 0 ≤ process.ProcessID - 1 ∧ (process.ProcessID - 1).toNat < st.schedule.length then
      .inl (sjfDispatch st process)
    else .inr process.ProcessID

/-- The `for len(remaining) > 0` loop of `SJFSchedule` (lines 99-141) with a
fuel bound. -/
def sjfLoop : Nat → SJFState → SJFOutcome
  | fuel, st =>
    if st.remaining.isEmpty then .done st
    else
      match fuel with
      | 0 => .outOfFuel st
      | fuel + 1 =>
        match sjfStep st with
        | .inl st1 => sjfLoop fuel st1
        | .inr pid => .panicked st pid

/-- The loop invariant of `SJFSchedule`: the table has the input's length;
slot `k` is written exactly when id `k+1` has been dispatched; the pool's
ids and the dispatched ids partition the input's ids; no id is dispatched
twice; and every written row carries `pid = index + 1` and satisfies
`turnaround = completion − arrival`. -/
structure SJFInv (allIds : List Int) (n : Nat) (st : SJFState) : Prop where
  len   : st.schedule.length = n
  slots : ∀ k : Nat, k < n →
    ((∃ r, st.schedule[k]? = some (some r)) ↔ ((k : Int) + 1) ∈ st.dispatched)
  part  : ∀ x : Int, (x ∈ ids st.remaining ∨ x ∈ st.dispatched) ↔ x ∈ allIds
  disj  : ∀ x ∈ st.dispatched, x ∉ ids st.remaining
  nodup : st.dispatched.Nodup
  rows  : ∀ (k : Nat) (r : Row), st.schedule[k]? = some (some r) →
    r.pid = (k : Int) + 1 ∧ r.turnaround = r.completion - r.arrival

/-- `SJFSchedule` (lines 81-151) up to the given fuel. -/
def SJFSchedule (fuel : Nat) (processes : List Process) : SJFOutcome :=
  sjfLoop fuel (sjfInit processes)

def sjfMetrics (processes : List Process) (st : SJFState) : Metrics :=
  { waitNum := st.totalWait, turnaroundNum := st.totalTurnaround
    count := processes.length, throughputDen := st.lastCompletion }

/-- `RRSchedule` (line 231): an empty body. -/
def RRSchedule (_processes : List Process) : Unit := ()

/-- `Process1` struct (lines 176-184). -/
structure Process1 where
  Name       : String
  Burst      : Int
  Arrival    : Int
  Priority   : Int
  Completed  : Bool
  Turnaround : Int
  Waiting    : Int
deriving DecidableEq, Repr

/-- The comparison `sort.Slice(waiting, ...)` orders by (line 201):
ascending `Burst`. -/
def byBurst (a b : Process1) : Prop :=
  a.Burst ≤ b.Burst

instance : DecidableRel byBurst :=
  fun a b => inferInstanceAs (Decidable (a.Burst ≤ b.Burst))

instance : IsTotal Process1 byBurst :=
  ⟨fun a b => Int.le_total a.Burst b.Burst⟩

instance : IsTrans Process1 byBurst :=
  ⟨fun _ _ _ h1 h2 => le_trans h1 h2⟩

/-- The local state of `SJFPrioritySchedule` (lines 189-192) plus the
read-only caller slice `procs` and the ghost `finishLog` of completion
events `(name, turnaround, waiting)`. -/
structure P1State where
  procs       : List Process1
  waiting     : List Process1
  active      : Option Process1
  completed   : Nat
  currentTime : Int
  finishLog   : List (String × Int × Int)
deriving DecidableEq, Repr

def p1Init (processes : List Process1) : P1State :=
  { procs := processes, waiting := [], active := none, completed := 0
    currentTime := 0, finishLog := [] }

/-- Lines 207-217: decrement the active copy's burst; on reaching zero mark
the copy completed, set its turnaround and waiting, bump the counter and
clear the slot; finally advance the clock.  `a` is the active copy, `ws` the
waiting slice after this tick's pop (or non-pop). -/
def runActive (st : P1State) (a : Process1) (ws : List Process1) : P1State :=
  let a1 := { a with Burst := a.Burst - 1 }
  if a1.Burst = 0 then
    let a2 := { a1 with Completed := true, Turnaround := st.currentTime + 1 - a1.Arrival }
    let a3 := { a2 with Waiting := a2.Turnaround - a2.Priority }
    { st with
      waiting := ws
      active := none
      completed := st.completed + 1
      currentTime := st.currentTime + 1
      finishLog := st.finishLog ++ [(a3.Name, a3.Turnaround, a3.Waiting)] }
  else
    { st with waiting := ws, active := some a1, currentTime := st.currentTime + 1 }

/-- One iteration of the `for completed < len(processes)` loop
(lines 194-217): re-append every not-completed arrived process from the
caller slice (the caller slice is never written, so `p.Completed` is its
input value), sort the waiting slice by burst, pop the head into the vacant
active slot, then run the active copy for one tick. -/
def arrivedPool (st : P1State) : List Process1 :=
  st.procs.filter (fun p => !p.Completed && decide (p.Arrival ≤ st.currentTime))

/-- Lines 195-202: the waiting slice after this tick's re-append of every
not-completed arrived caller entry and the sort by burst. -/
def sortedWaiting (st : P1State) : List Process1 :=
  List.insertionSort byBurst (st.waiting ++ arrivedPool st)

def tickP (st : P1State) : P1State :=
  match st.active, sortedWaiting st with
  | none, [] => { st with waiting := [], currentTime := st.currentTime + 1 }
  | none, w :: ws => runActive st w ws
  | some a, l => runActive st a l

inductive POutcome where
  | outOfFuel (st : P1State)
  | done      (st : P1State)
deriving DecidableEq, Repr

def loopP : Nat → P1State → POutcome
  | fuel, st =>
    if st.completed < st.procs.length then
      match fuel with
      | 0 => .outOfFuel st
      | fuel + 1 => loopP fuel (tickP st)
    else .done st

/-- `SJFPrioritySchedule` (lines 186-229) up to the given fuel. -/
def SJFPrioritySchedule (fuel : Nat) (processes : List Process1) : POutcome :=
  loopP fuel (p1Init processes)

def pStateOf : POutcome → P1State
  | .outOfFuel st => st
  | .done st => st

def pIsDone : POutcome → Bool
  | .outOfFuel _ => false
  | .done _ => true

/-- Lines 220-224: the totals summed over the *caller's* slice after the
loop. -/
def totalTurnaroundP (st : P1State) : Int :=
  (st.procs.map (·.Turnaround)).sum

def totalWaitingP (st : P1State) : Int :=
  (st.procs.map (·.Waiting)).sum

/-- The three report lines 226-228 as numerator/denominator pairs:
average turnaround, average waiting (divisor `len(processes)`), throughput
(`len(processes) / currentTime`). -/
def pReport (st : P1State) : Int × Int × Nat × Int :=
  (totalTurnaroundP st, totalWaitingP st, st.procs.length, st.currentTime)

def sjfStateOf : SJFOutcome → SJFState
  | .outOfFuel st => st
  | .panicked st _ => st
  | .done st => st

def sjfIsOut : SJFOutcome → Bool
  | .outOfFuel _ => true
  | .panicked _ _ => false
  | .done _ => false

def pIsOut : POutcome → Bool
  | .outOfFuel _ => true
  | .done _ => false

/-- `SJFSchedule`'s loop halts on this input: some fuel suffices, i.e. Go's
`for len(remaining) > 0` loop does not run forever (it either finishes or
panics on the table write). -/
def sjfTerminates (processes : List Process) : Prop :=
  ∃ fuel, sjfIsOut (SJFSchedule fuel processes) = false

/-- `SJFPrioritySchedule`'s loop halts on this input: some fuel reaches
`completed ≥ len(processes)`. -/
def pTerminates (processes : List Process1) : Prop :=
  ∃ fuel, pIsOut (SJFPrioritySchedule fuel processes) = false

/-- A valid batch for the preemptive driver: positive bursts (data-model
invariant `burstDuration > 0`) and zero-initialized mutable state
(`completed == false`). -/
def validBatch (processes : List Process1) : Bool :=
  processes.all (fun p => decide (1 ≤ p.Burst) && !p.Completed)

/-- The ids `1, 2, ..., n`. -/
def oneToN (n : Nat) : List Int :=
  (List.range n).map (fun k : Nat => (k : Int) + 1)

/-- The running-minimum combine of `findShortestJob`'s scan: keep the held
job unless the new one's burst is strictly smaller (first encountered wins
ties). -/
def combine (acc : Option Process) (p : Process) : Option Process :=
  match acc with
  | none => some p
  | some s => if p.BurstDuration < s.BurstDuration then some p else some s

/-- Modelled from the spec (§4.2): among the pool entries whose
`arrivalTime ≤ currentServiceTime`, select the one with smallest
`burstDuration`, ties broken by the pool's current scan order (first
encountered wins). -/
def selectShortestArrived (pool : List Process) (serviceTime : Int) : Option Process :=
  (pool.filter (fun p => p.ArrivalTime ≤ serviceTime)).foldl combine none

/-- The pool is in ascending arrival order (what `sort.SliceStable` with
`byArrivalTime` establishes). -/
def sortedByArrival (l : List Process) : Prop :=
  l.Pairwise (fun a b => a.ArrivalTime ≤ b.ArrivalTime)

instance (l : List Process) : Decidable (sortedByArrival l) :=
  inferInstanceAs (Decidable (l.Pairwise (fun (a b : Process) => a.ArrivalTime ≤ b.ArrivalTime)))

def sumBursts (processes : List Process) : Int :=
  (processes.map (·.BurstDuration)).sum

/-- The waiting-time cell of row `i` of the FCFS table (0 when there is no
such row). -/
def rowWaiting (processes : List Process) (i : Nat) : Int :=
  (((FCFSSchedule processes).schedule[i]?).map (·.waiting)).getD 0

/-- The FCFS table rows as a direct recursion on the batch, carrying the
service clock and the persistent `waitingTime` variable; proved below to be
exactly what `FCFSSchedule` produces. -/
def fcfsRows (clock w : Int) : List Process → List Row
  | [] => []
  | p :: rest =>
    fcfsRow clock w p :: fcfsRows (clock + p.BurstDuration) (fcfsWaitNext clock w p) rest

def pMaxBurst (processes : List Process1) : Int :=
  (processes.map (·.Burst)).foldr max 0

/-- Total distance until the batch's arrival times are all reached from
clock `t`: strictly decreases on an all-idle tick. -/
def pArrGapSum (processes : List Process1) (t : Int) : Nat :=
  (processes.map (fun p => (p.Arrival - t).toNat)).sum

/-- Termination measure for the tick loop at constant `completed`: the
active copy's remaining burst, or a bound on the ticks until some copy
becomes active and finishes. -/
def pMu2 (st : P1State) : Nat :=
  match st.active with
  | some a => a.Burst.toNat
  | none =>
    (if st.waiting.isEmpty then pArrGapSum st.procs st.currentTime else 0) +
      (pMaxBurst st.procs).toNat + 1

/-- Ticks until the head of the (arrival-sorted) remaining pool arrives:
strictly decreases on an idle tick of `SJFSchedule`. -/
def sjfGap (st : SJFState) : Nat :=
  match st.remaining with
  | [] => 0
  | p :: _ => (p.ArrivalTime - st.serviceTime).toNat

/-- The tick-loop invariant of `SJFPrioritySchedule` for a valid batch:
every caller entry has positive burst and is not marked completed (so the
line-196 filter always re-adds it once arrived); every waiting entry is a
value copy of some caller entry (so its burst is an original one); the
active copy's remaining burst stays within [1, max input burst]. -/
structure PInv (st : P1State) : Prop where
  pos   : ∀ p ∈ st.procs, 1 ≤ p.Burst
  ncomp : ∀ p ∈ st.procs, p.Completed = false
  wsub  : ∀ w ∈ st.waiting, w ∈ st.procs
  act   : ∀ a, st.active = some a → 1 ≤ a.Burst ∧ a.Burst ≤ pMaxBurst st.procs

/-! ## Concrete runs deciding the falsified claims -/

/-- Claim C1, counterexample: with a single process of arrival time 5 and
burst 1, the FCFS waiting-time cell is `-5` — the condition on line 40 is
`ArrivalTime > 0`, not "second process onward" — refuting both the claimed
`max 0 (serviceClock - arrival) = 0` and the claimed special case "the first
process waits 0 regardless of its arrival". -/
theorem fcfs_first_positive_arrival_waits_negative :
    (FCFSSchedule [⟨1, 5, 1, 0⟩]).schedule.map (·.waiting) = [-5] ∧
      ¬ ((-5 : Int) = 0) ∧ ¬ ((-5 : Int) = max 0 (0 - 5)) := by
  decide

/-- Claim C3, counterexample: on the empty batch every driver returns
normally — the source has no validation or error path — and the average
divisor (`count`) and the throughput divisor are 0, i.e. the Go float
divisions are 0/0 (NaN there). -/
theorem empty_batch_divides_by_zero :
    (fcfsMetrics []).count = 0 ∧ (fcfsMetrics []).throughputDen = 0 ∧
      SJFSchedule 0 [] = .done (sjfInit []) ∧
      (sjfMetrics [] (sjfStateOf (SJFSchedule 0 []))).count = 0 ∧
      SJFPrioritySchedule 0 [] = .done (p1Init []) ∧
      pReport (pStateOf (SJFPrioritySchedule 0 [])) = (0, 0, 0, 0) := by
  decide

/-- Claim C2: on the one-process batch {P1, burst 2}, the completion event
at tick 1 computes turnaround 2 and waiting 2 (recorded in the finish log,
lines 212-213 write them into the active copy), but the reported totals —
summed over the caller's never-written slice, lines 220-224 — are (0, 0)
over 1 process and 2 elapsed ticks. -/
theorem sjfPriority_reports_stale_totals :
    (pStateOf (SJFPrioritySchedule 10 [⟨"P1", 2, 0, 0, false, 0, 0⟩])).finishLog =
        [("P1", 2, 2)] ∧
      pReport (pStateOf (SJFPrioritySchedule 10 [⟨"P1", 2, 0, 0, false, 0, 0⟩])) =
        (0, 0, 1, 2) := by
  decide

/-- Claim C5: the waiting set is not deduplicated.  For the batch
{P1 burst 2, P2 burst 3}, in the second tick no pop happens (P1's copy is
active), so the tick's sorted waiting set is the state's waiting list after
two ticks — and it holds two entries for P2. -/
theorem sjfPriority_waiting_set_has_duplicates :
    ((tickP (tickP (p1Init
          [⟨"P1", 2, 0, 0, false, 0, 0⟩, ⟨"P2", 3, 0, 0, false, 0, 0⟩]))).waiting.filter
        (fun p => p.Name == "P2")).length = 2 := by
  decide

/-- Claim C9, counterexample: on the valid batch {P1 burst 2, P2 burst 3}
the preemptive driver terminates with `completed = 2 = len(processes)`, but
both completion events belong to duplicated copies of P1; P2 never
completes, refuting "all processes eventually complete". -/
theorem sjfPriority_finishes_without_running_P2 :
    pIsDone (SJFPrioritySchedule 10
        [⟨"P1", 2, 0, 0, false, 0, 0⟩, ⟨"P2", 3, 0, 0, false, 0, 0⟩]) = true ∧
      (pStateOf (SJFPrioritySchedule 10
        [⟨"P1", 2, 0, 0, false, 0, 0⟩, ⟨"P2", 3, 0, 0, false, 0, 0⟩])).completed = 2 ∧
      (pStateOf (SJFPrioritySchedule 10
        [⟨"P1", 2, 0, 0, false, 0, 0⟩, ⟨"P2", 3, 0, 0, false, 0, 0⟩])).finishLog.map
          (·.1) = ["P1", "P1"] := by
  decide

/-- Claim C7, counterexample: SJF on the batch [id 2, id 1] (both arrival 0,
bursts 1 and 2) produces a table whose first row is process 1: rows are
placed at index `ProcessID - 1`, not input position, so the table is not in
input order. -/
theorem sjf_table_not_in_input_order :
    (sjfStateOf (SJFSchedule 10 [⟨2, 0, 1, 0⟩, ⟨1, 0, 2, 0⟩])).schedule.map
        (fun o => o.map (·.pid)) = [some 1, some 2] ∧
      ids [⟨2, 0, 1, 0⟩, ⟨1, 0, 2, 0⟩] = [2, 1] ∧
      ¬ ([some (1 : Int), some 2] = [some 2, some 1]) := by
  decide

/-- Claim C3, amended: no driver validates its input.  On the empty batch
each driver returns normally whatever the fuel, with average divisor
`count = 0` and throughput divisor 0 (0/0 float divisions, NaN, in Go), and
the Round-Robin stub does nothing. -/
theorem drivers_skip_empty_batch_validation :
    fcfsMetrics [] = { waitNum := 0, turnaroundNum := 0, count := 0, throughputDen := 0 } ∧
      (∀ fuel, SJFSchedule fuel [] = .done (sjfInit [])) ∧
      (∀ fuel, SJFPrioritySchedule fuel [] = .done (p1Init [])) ∧
      pReport (p1Init []) = (0, 0, 0, 0) ∧
      RRSchedule [] = () := by
  refine ⟨by decide, fun fuel => ?_, fun fuel => ?_, by decide, rfl⟩
  · show sjfLoop fuel (sjfInit []) = .done (sjfInit [])
    unfold sjfLoop
    simp [sjfInit]
  · show loopP fuel (p1Init []) = .done (p1Init [])
    unfold loopP
    simp [p1Init]

theorem runActive_procs (st : P1State) (a : Process1) (ws : List Process1) :
    (runActive st a ws).procs = st.procs := by
  unfold runActive
  dsimp only
  split <;> rfl

theorem tickP_procs (st : P1State) : (tickP st).procs = st.procs := by
  unfold tickP
  split
  · rfl
  · exact runActive_procs ..
  · exact runActive_procs ..

theorem loopP_procs (fuel : Nat) (st : P1State) :
    (pStateOf (loopP fuel st)).procs = st.procs := by
  induction fuel generalizing st with
  | zero =>
    unfold loopP
    split <;> rfl
  | succ f ih =>
    unfold loopP
    split
    · exact (ih (tickP st)).trans (tickP_procs st)
    · rfl

/-- Claim C6: `SJFPrioritySchedule` never writes back to the caller's slice:
whatever the batch and fuel, the final state's `procs` is the input list
itself, and the reported totals are therefore the sums of the *input*
`Turnaround` and `Waiting` fields. -/
theorem sjfPriority_never_mutates_caller_slice (processes : List Process1) (fuel : Nat) :
    (pStateOf (SJFPrioritySchedule fuel processes)).procs = processes ∧
      totalTurnaroundP (pStateOf (SJFPrioritySchedule fuel processes)) =
        (processes.map (·.Turnaround)).sum ∧
      totalWaitingP (pStateOf (SJFPrioritySchedule fuel processes)) =
        (processes.map (·.Waiting)).sum := by
  have h : (pStateOf (SJFPrioritySchedule fuel processes)).procs = processes :=
    loopP_procs fuel (p1Init processes)
  exact ⟨h, by rw [totalTurnaroundP, h], by rw [totalWaitingP, h]⟩

/-! ## The SJF selection function -/

theorem findShortestJobAux_cons (p : Process) (rest : List Process) (t : Int)
    (acc : Option Process) :
    findShortestJobAux (p :: rest) t acc =
      if p.ArrivalTime > t then acc
      else
        match acc with
        | none => findShortestJobAux rest t (some p)
        | some s =>
          if p.BurstDuration < s.BurstDuration then findShortestJobAux rest t (some p)
          else findShortestJobAux rest t (some s) := rfl

theorem findShortestJobAux_eq_foldl (l : List Process) (t : Int) (acc : Option Process) :
    findShortestJobAux l t acc =
      (l.takeWhile (fun p => p.ArrivalTime ≤ t)).foldl combine acc := by
  induction l generalizing acc with
  | nil => rfl
  | cons p rest ih =>
    rw [findShortestJobAux_cons, List.takeWhile_cons]
    by_cases h : p.ArrivalTime > t
    · have hb : ¬ (decide (p.ArrivalTime ≤ t) = true) := by simpa using h
      simp only [if_pos h, if_neg hb, List.foldl_nil]
    · have hb : decide (p.ArrivalTime ≤ t) = true := by simpa using not_lt.mp h
      simp only [if_neg h, if_pos hb, List.foldl_cons]
      cases acc with
      | none => exact ih (some p)
      | some s =>
        by_cases hlt : p.BurstDuration < s.BurstDuration
        · simp only [if_pos hlt, combine, ih]
        · simp only [if_neg hlt, combine, ih]

theorem takeWhile_arrived_eq_filter (l : List Process) (t : Int) :
    sortedByArrival l →
      l.takeWhile (fun p => p.ArrivalTime ≤ t) = l.filter (fun p => p.ArrivalTime ≤ t) := by
  induction l with
  | nil => intro _; rfl
  | cons p rest ih =>
    intro h
    rw [sortedByArrival, List.pairwise_cons] at h
    rw [List.takeWhile_cons, List.filter_cons]
    by_cases hp : p.ArrivalTime ≤ t
    · simp only [decide_eq_true_eq, if_pos hp, ih h.2]
    · simp only [decide_eq_true_eq, if_neg hp]
      rw [eq_comm, List.filter_eq_nil_iff]
      intro q hq
      simp only [decide_eq_true_eq]
      intro hqt
      exact hp (le_trans (h.1 q hq) hqt)

/-- On an arrival-sorted pool the break-at-future-arrival scan of
`findShortestJob` computes exactly the spec's selection. -/
theorem findShortestJob_eq_spec (l : List Process) (t : Int) (h : sortedByArrival l) :
    findShortestJob l t = selectShortestArrived l t := by
  rw [findShortestJob, findShortestJobAux_eq_foldl, takeWhile_arrived_eq_filter l t h,
    selectShortestArrived]

theorem combine_some (acc : Option Process) (p : Process) :
    ∃ s, combine acc p = some s ∧ s.BurstDuration ≤ p.BurstDuration ∧
      (∀ a, acc = some a → s.BurstDuration ≤ a.BurstDuration) := by
  cases acc with
  | none => exact ⟨p, rfl, le_refl _, by intro a ha; cases ha⟩
  | some a =>
    by_cases hlt : p.BurstDuration < a.BurstDuration
    · refine ⟨p, by simp [combine, hlt], le_refl _, ?_⟩
      intro b hb
      cases hb
      exact le_of_lt hlt
    · refine ⟨a, by simp [combine, hlt], not_lt.mp hlt, ?_⟩
      intro b hb
      cases hb
      exact le_refl _

theorem foldl_combine_min (l : List Process) (acc : Option Process) (r : Process)
    (h : l.foldl combine acc = some r) :
    (∀ q ∈ l, r.BurstDuration ≤ q.BurstDuration) ∧
      (∀ s, acc = some s → r.BurstDuration ≤ s.BurstDuration) := by
  induction l generalizing acc with
  | nil =>
    constructor
    · intro q hq
      exact absurd hq (List.not_mem_nil q)
    · intro s hs
      rw [List.foldl_nil] at h
      rw [hs] at h
      cases h
      exact le_refl _
  | cons q rest ih =>
    rw [List.foldl_cons] at h
    obtain ⟨h1, h2⟩ := ih (combine acc q) h
    obtain ⟨s0, hs0, hs0q, hs0acc⟩ := combine_some acc q
    refine ⟨?_, ?_⟩
    · intro x hx
      rcases List.mem_cons.mp hx with hxq | hxr
      · subst hxq
        exact le_trans (h2 s0 hs0) hs0q
      · exact h1 x hxr
    · intro s hs
      exact le_trans (h2 s0 hs0) (hs0acc s hs)

theorem findShortestJobAux_mem (l : List Process) (t : Int) :
    ∀ (acc : Option Process) (p : Process), findShortestJobAux l t acc = some p →
      (p ∈ l ∧ p.ArrivalTime ≤ t) ∨ acc = some p := by
  induction l with
  | nil => intro acc p h; exact Or.inr h
  | cons q rest ih =>
    intro acc p h
    rw [findShortestJobAux_cons] at h
    by_cases hq : q.ArrivalTime > t
    · rw [if_pos hq] at h
      exact Or.inr h
    · rw [if_neg hq] at h
      have harr : q.ArrivalTime ≤ t := not_lt.mp hq
      cases acc with
      | none =>
        rcases ih (some q) p h with hl | hr
        · exact Or.inl ⟨List.mem_cons_of_mem q hl.1, hl.2⟩
        · cases hr
          exact Or.inl ⟨List.mem_cons_self q rest, harr⟩
      | some s =>
        dsimp only at h
        by_cases hlt : q.BurstDuration < s.BurstDuration
        · rw [if_pos hlt] at h
          rcases ih (some q) p h with hl | hr
          · exact Or.inl ⟨List.mem_cons_of_mem q hl.1, hl.2⟩
          · cases hr
            exact Or.inl ⟨List.mem_cons_self q rest, harr⟩
        · rw [if_neg hlt] at h
          rcases ih (some s) p h with hl | hr
          · exact Or.inl ⟨List.mem_cons_of_mem q hl.1, hl.2⟩
          · exact Or.inr hr

theorem findShortestJob_mem_arrived (l : List Process) (t : Int) (p : Process)
    (h : findShortestJob l t = some p) : p ∈ l ∧ p.ArrivalTime ≤ t := by
  rcases findShortestJobAux_mem l t none p h with hl | hr
  · exact hl
  · cases hr

theorem sortedByArrival_init (processes : List Process) :
    sortedByArrival (sjfInit processes).remaining :=
  List.sorted_insertionSort byArrivalTime processes

theorem sortedByArrival_removeProcess (l : List Process) (p : Process)
    (h : sortedByArrival l) : sortedByArrival (removeProcess l p) :=
  List.Pairwise.sublist (List.filter_sublist l) h

/-- Claim C4: at every dispatch point of the SJF driver — whose pool starts
arrival-sorted (`sjfInit`) and stays so across `removeProcess` — the
selection equals the spec's: minimal burst among the arrived pool entries,
first encountered wins ties; the selected job is an arrived pool member, so
a shorter job that has not yet arrived is never selected. -/
theorem sjf_dispatch_selects_shortest_arrived :
    (∀ (l : List Process) (t : Int), sortedByArrival l →
        findShortestJob l t = selectShortestArrived l t) ∧
      (∀ processes : List Process, sortedByArrival (sjfInit processes).remaining) ∧
      (∀ (l : List Process) (p : Process), sortedByArrival l →
        sortedByArrival (removeProcess l p)) ∧
      (∀ (l : List Process) (t : Int) (p : Process), findShortestJob l t = some p →
        p ∈ l ∧ p.ArrivalTime ≤ t) ∧
      (∀ (l : List Process) (t : Int) (p : Process), sortedByArrival l →
        findShortestJob l t = some p →
        ∀ q ∈ l, q.ArrivalTime ≤ t → p.BurstDuration ≤ q.BurstDuration) := by
  refine ⟨findShortestJob_eq_spec, sortedByArrival_init, sortedByArrival_removeProcess,
    findShortestJob_mem_arrived, ?_⟩
  intro l t p hsort hfind q hq hqt
  rw [findShortestJob_eq_spec l t hsort, selectShortestArrived] at hfind
  have hmem : q ∈ l.filter (fun p => p.ArrivalTime ≤ t) :=
    List.mem_filter.mpr ⟨hq, by simpa using hqt⟩
  exact (foldl_combine_min _ none p hfind).1 q hmem

/-- Claim C4, instantiated at the spec's crafted batch: at time 0 the
later-arriving shorter job (id 2, burst 1, arrival 3) is not selected; the
arrived longer job (id 1, burst 5) is; from time 3 the shorter job wins. -/
theorem sjf_dispatch_selects_shortest_arrived_witness :
    findShortestJob [⟨1, 0, 5, 0⟩, ⟨2, 3, 1, 0⟩] 0 =
        selectShortestArrived [⟨1, 0, 5, 0⟩, ⟨2, 3, 1, 0⟩] 0 ∧
      findShortestJob [⟨1, 0, 5, 0⟩, ⟨2, 3, 1, 0⟩] 0 = some ⟨1, 0, 5, 0⟩ ∧
      findShortestJob [⟨1, 0, 5, 0⟩, ⟨2, 3, 1, 0⟩] 3 = some ⟨2, 3, 1, 0⟩ :=
  ⟨sjf_dispatch_selects_shortest_arrived.1 [⟨1, 0, 5, 0⟩, ⟨2, 3, 1, 0⟩] 0 (by decide),
    by decide, by decide⟩

/-! ## The FCFS table -/

theorem fcfsGo_cons (st : FCFSAcc) (p : Process) (rest : List Process) :
    fcfsGo st (p :: rest) = fcfsGo (fcfsStep st p) rest := rfl

theorem fcfsStep_schedule (st : FCFSAcc) (p : Process) :
    (fcfsStep st p).schedule = st.schedule ++ [fcfsRow st.serviceTime st.waitingTime p] := rfl

theorem fcfsGo_schedule (ps : List Process) : ∀ st : FCFSAcc,
    (fcfsGo st ps).schedule = st.schedule ++ fcfsRows st.serviceTime st.waitingTime ps := by
  induction ps with
  | nil => intro st; simp [fcfsGo, fcfsRows]
  | cons p rest ih =>
    intro st
    rw [fcfsGo_cons, ih (fcfsStep st p), fcfsStep_schedule, List.append_assoc]
    rfl

theorem FCFSSchedule_schedule (processes : List Process) :
    (FCFSSchedule processes).schedule = fcfsRows 0 0 processes := by
  rw [FCFSSchedule, fcfsGo_schedule]
  rfl

theorem fcfsRows_static (clock w : Int) (ps : List Process) :
    (fcfsRows clock w ps).map (fun r => (r.pid, r.prio, r.burst, r.arrival)) =
      ps.map (fun p => (p.ProcessID, p.Priority, p.BurstDuration, p.ArrivalTime)) := by
  induction ps generalizing clock w with
  | nil => rfl
  | cons p rest ih => simp [fcfsRows, fcfsRow, ih]

theorem fcfsRows_turnaround (ps : List Process) : ∀ (clock w : Int) (r : Row),
    r ∈ fcfsRows clock w ps → r.turnaround = r.completion - r.arrival := by
  induction ps with
  | nil => intro clock w r hr; simp [fcfsRows] at hr
  | cons p rest ih =>
    intro clock w r hr
    rcases List.mem_cons.mp hr with hh | ht
    · subst hh
      simp only [fcfsRow]
      omega
    · exact ih (clock + p.BurstDuration) (fcfsWaitNext clock w p) r ht

theorem fcfsRows_cons (clock w : Int) (q : Process) (rest : List Process) :
    fcfsRows clock w (q :: rest) =
      fcfsRow clock w q :: fcfsRows (clock + q.BurstDuration) (fcfsWaitNext clock w q) rest := rfl

theorem fcfsRows_waiting (ps : List Process) : ∀ (clock w : Int) (i : Nat) (p : Process),
    ps[i]? = some p →
      ((fcfsRows clock w ps)[i]?.map (·.waiting)).getD 0 =
        if p.ArrivalTime > 0 then clock + sumBursts (ps.take i) - p.ArrivalTime
        else if i = 0 then w
        else ((fcfsRows clock w ps)[i - 1]?.map (·.waiting)).getD 0 := by
  induction ps with
  | nil => intro clock w i p h; simp at h
  | cons q rest ih =>
    intro clock w i p h
    match i with
    | 0 =>
      rw [List.getElem?_cons_zero] at h
      cases h
      simp [fcfsRows, fcfsRow, fcfsWaitNext, sumBursts]
    | j + 1 =>
      rw [List.getElem?_cons_succ] at h
      have hrec := ih (clock + q.BurstDuration) (fcfsWaitNext clock w q) j p h
      have hshift : ∀ k : Nat, (fcfsRows clock w (q :: rest))[k + 1]? =
          (fcfsRows (clock + q.BurstDuration) (fcfsWaitNext clock w q) rest)[k]? := by
        intro k
        rw [fcfsRows_cons, List.getElem?_cons_succ]
      rw [hshift j, hrec]
      have hsum : sumBursts ((q :: rest).take (j + 1)) =
          q.BurstDuration + sumBursts (rest.take j) := by
        simp [sumBursts]
      by_cases hA : p.ArrivalTime > 0
      · rw [if_pos hA, if_pos hA, hsum]
        omega
      · rw [if_neg hA, if_neg hA]
        match j with
        | 0 => simp [fcfsRows_cons, fcfsRow]
        | k + 1 =>
          have h1 : ¬ (k + 1 = 0) := Nat.succ_ne_zero k
          have h2 : ¬ (k + 1 + 1 = 0) := Nat.succ_ne_zero (k + 1)
          rw [if_neg h1, if_neg h2]
          have h3 : k + 1 + 1 - 1 = k + 1 := rfl
          rw [h3, hshift k, Nat.add_sub_cancel]

/-- Claim C1, amended: in the FCFS table, a process with positive arrival
time gets the unclamped `waiting = serviceClock − arrival` (the service
clock being the sum of all earlier bursts; the value may be negative), and a
process with arrival time 0 — wherever it appears, first or later —
inherits the previous row's waiting time (0 for row 0).  In particular the
first process waits 0 only when its arrival time is not positive. -/
theorem fcfs_waiting_time_law (processes : List Process) (i : Nat) (p : Process)
    (hp : processes[i]? = some p) :
    rowWaiting processes i =
      if p.ArrivalTime > 0 then sumBursts (processes.take i) - p.ArrivalTime
      else if i = 0 then 0
      else rowWaiting processes (i - 1) := by
  unfold rowWaiting
  rw [FCFSSchedule_schedule, fcfsRows_waiting processes 0 0 i p hp]
  by_cases hA : p.ArrivalTime > 0
  · rw [if_pos hA, if_pos hA]
    omega
  · rw [if_neg hA, if_neg hA]

/-- Claim C1 witness: the batch [{id 1, arrival 5, burst 1}, {id 2,
arrival 0, burst 2}]: row 1 has arrival 0, so it inherits row 0's waiting
value (which is −5). -/
theorem fcfs_waiting_time_law_witness :
    rowWaiting [⟨1, 5, 1, 0⟩, ⟨2, 0, 2, 0⟩] 1 =
      if (Process.mk 2 0 2 0).ArrivalTime > 0 then
        sumBursts (List.take 1 [⟨1, 5, 1, 0⟩, ⟨2, 0, 2, 0⟩]) - (Process.mk 2 0 2 0).ArrivalTime
      else if 1 = 0 then 0
      else rowWaiting [⟨1, 5, 1, 0⟩, ⟨2, 0, 2, 0⟩] 0 :=
  fcfs_waiting_time_law [⟨1, 5, 1, 0⟩, ⟨2, 0, 2, 0⟩] 1 ⟨2, 0, 2, 0⟩ rfl

/-! ## The SJF table invariant -/

theorem mem_ids_removeProcess (l : List Process) (p : Process) (x : Int) :
    x ∈ ids (removeProcess l p) ↔ x ∈ ids l ∧ x ≠ p.ProcessID := by
  simp only [ids, removeProcess, List.mem_map, List.mem_filter, decide_eq_true_eq]
  constructor
  · rintro ⟨a, ⟨ha, hne⟩, rfl⟩
    exact ⟨⟨a, ha, rfl⟩, hne⟩
  · rintro ⟨⟨a, ha, rfl⟩, hne⟩
    exact ⟨a, ⟨ha, hne⟩, rfl⟩

theorem mem_ids_of_mem {l : List Process} {p : Process} (h : p ∈ l) :
    p.ProcessID ∈ ids l :=
  List.mem_map.mpr ⟨p, h, rfl⟩

theorem sjfDispatch_schedule (st : SJFState) (p : Process) :
    (sjfDispatch st p).schedule =
      st.schedule.set (p.ProcessID - 1).toNat (some (sjfRow st p)) := rfl

theorem sjfDispatch_dispatched (st : SJFState) (p : Process) :
    (sjfDispatch st p).dispatched = st.dispatched ++ [p.ProcessID] := rfl

theorem sjfDispatch_remaining (st : SJFState) (p : Process) :
    (sjfDispatch st p).remaining = removeProcess st.remaining p := rfl

theorem sjfInv_dispatch (allIds : List Int) (n : Nat) (st : SJFState) (p : Process)
    (hInv : SJFInv allIds n st) (hmem : p ∈ st.remaining)
    (harr : p.ArrivalTime ≤ st.serviceTime)
    (hidx : 0 ≤ p.ProcessID - 1 ∧ (p.ProcessID - 1).toNat < st.schedule.length) :
    SJFInv allIds n (sjfDispatch st p) := by
  obtain ⟨hlen, hslots, hpart, hdisj, hnodup, hrows⟩ := hInv
  have hm : (p.ProcessID - 1).toNat < n := hlen ▸ hidx.2
  have hcast : ((p.ProcessID - 1).toNat : Int) = p.ProcessID - 1 := Int.toNat_of_nonneg hidx.1
  have hpid_mem : p.ProcessID ∈ ids st.remaining := mem_ids_of_mem hmem
  have hpid_not_disp : p.ProcessID ∉ st.dispatched := fun hc => hdisj _ hc hpid_mem
  constructor
  · rw [sjfDispatch_schedule, List.length_set]
    exact hlen
  · intro k hk
    rw [sjfDispatch_schedule, sjfDispatch_dispatched]
    rw [List.getElem?_set]
    by_cases hkm : (p.ProcessID - 1).toNat = k
    · subst hkm
      rw [if_pos rfl, if_pos hidx.2]
      have h5 : ((p.ProcessID - 1).toNat : Int) + 1 = p.ProcessID := by omega
      rw [h5]
      constructor
      · intro _
        exact List.mem_append_right _ (List.mem_singleton.mpr rfl)
      · intro _
        exact ⟨sjfRow st p, rfl⟩
    · rw [if_neg hkm]
      have hne : ((k : Int) + 1) ≠ p.ProcessID := by omega
      rw [List.mem_append, List.mem_singleton]
      constructor
      · intro hex
        exact Or.inl ((hslots k hk).mp hex)
      · rintro (hd | he)
        · exact (hslots k hk).mpr hd
        · exact absurd he hne
  · intro x
    rw [sjfDispatch_remaining, sjfDispatch_dispatched, mem_ids_removeProcess,
      List.mem_append, List.mem_singleton, ← hpart x]
    by_cases hx : x = p.ProcessID
    · subst hx
      constructor
      · intro _
        exact Or.inl hpid_mem
      · intro _
        exact Or.inr (Or.inr rfl)
    · constructor
      · rintro (⟨hl, _⟩ | hd | he)
        · exact Or.inl hl
        · exact Or.inr hd
        · exact absurd he hx
      · rintro (hl | hd)
        · exact Or.inl ⟨hl, hx⟩
        · exact Or.inr (Or.inl hd)
  · intro x hx
    rw [sjfDispatch_dispatched, List.mem_append, List.mem_singleton] at hx
    rw [sjfDispatch_remaining, mem_ids_removeProcess]
    rintro ⟨hxl, hxne⟩
    rcases hx with hd | he
    · exact hdisj x hd hxl
    · exact hxne he
  · rw [sjfDispatch_dispatched]
    refine List.Nodup.append hnodup (List.nodup_singleton _) ?_
    intro a ha hb
    exact hpid_not_disp (List.mem_singleton.mp hb ▸ ha)
  · intro k r hkr
    rw [sjfDispatch_schedule, List.getElem?_set] at hkr
    by_cases hkm : (p.ProcessID - 1).toNat = k
    · subst hkm
      rw [if_pos rfl, if_pos hidx.2] at hkr
      cases hkr
      constructor
      · show p.ProcessID = ((p.ProcessID - 1).toNat : Int) + 1
        omega
      · show p.BurstDuration + sjfWaiting st p =
          (p.BurstDuration + st.serviceTime) - p.ArrivalTime
        rw [sjfWaiting, if_neg (by omega)]
        omega
    · rw [if_neg hkm] at hkr
      exact hrows k r hkr

theorem sjfInv_idle (allIds : List Int) (n : Nat) (st : SJFState) (x : Int)
    (hInv : SJFInv allIds n st) : SJFInv allIds n { st with serviceTime := x } := by
  obtain ⟨h1, h2, h3, h4, h5, h6⟩ := hInv
  exact ⟨h1, h2, h3, h4, h5, h6⟩

theorem sjfStep_inl_inv (allIds : List Int) (n : Nat) (st st1 : SJFState)
    (hInv : SJFInv allIds n st) (hs : sjfStep st = .inl st1) : SJFInv allIds n st1 := by
  rw [sjfStep] at hs
  cases hf : findShortestJob st.remaining st.serviceTime with
  | none =>
    rw [hf] at hs
    cases hs
    exact sjfInv_idle allIds n st _ hInv
  | some p =>
    rw [hf] at hs
    dsimp only at hs
    by_cases hidx : 0 ≤ p.ProcessID - 1 ∧ (p.ProcessID - 1).toNat < st.schedule.length
    · rw [if_pos hidx] at hs
      cases hs
      obtain ⟨hmem, harr⟩ := findShortestJob_mem_arrived _ _ _ hf
      exact sjfInv_dispatch allIds n st p hInv hmem harr hidx
    · rw [if_neg hidx] at hs
      cases hs

theorem sjfStep_inr_flags (allIds : List Int) (n : Nat) (st : SJFState) (pid : Int)
    (hInv : SJFInv allIds n st) (hs : sjfStep st = .inr pid) :
    pid ∈ allIds ∧ (pid < 1 ∨ (n : Int) < pid) := by
  rw [sjfStep] at hs
  cases hf : findShortestJob st.remaining st.serviceTime with
  | none =>
    rw [hf] at hs
    cases hs
  | some p =>
    rw [hf] at hs
    dsimp only at hs
    by_cases hidx : 0 ≤ p.ProcessID - 1 ∧ (p.ProcessID - 1).toNat < st.schedule.length
    · rw [if_pos hidx] at hs
      cases hs
    · rw [if_neg hidx] at hs
      cases hs
      obtain ⟨hmem, _⟩ := findShortestJob_mem_arrived _ _ _ hf
      refine ⟨(hInv.part _).mp (Or.inl (mem_ids_of_mem hmem)), ?_⟩
      rw [hInv.len] at hidx
      omega

theorem sjfLoop_zero (st : SJFState) :
    sjfLoop 0 st = if st.remaining.isEmpty then .done st else .outOfFuel st := rfl

theorem sjfLoop_succ (f : Nat) (st : SJFState) :
    sjfLoop (f + 1) st =
      if st.remaining.isEmpty then .done st
      else
        match sjfStep st with
        | .inl st1 => sjfLoop f st1
        | .inr pid => .panicked st pid := rfl

theorem sjfLoop_spec (allIds : List Int) (n : Nat) : ∀ (fuel : Nat) (st : SJFState),
    SJFInv allIds n st →
      (∀ st', sjfLoop fuel st = .done st' → SJFInv allIds n st' ∧ st'.remaining = []) ∧
      (∀ st' pid, sjfLoop fuel st = .panicked st' pid →
        pid ∈ allIds ∧ (pid < 1 ∨ (n : Int) < pid)) := by
  intro fuel
  induction fuel with
  | zero =>
    intro st hInv
    constructor
    · intro st' hd
      rw [sjfLoop_zero] at hd
      by_cases he : st.remaining.isEmpty
      · rw [if_pos he] at hd
        cases hd
        exact ⟨hInv, List.isEmpty_iff.mp he⟩
      · rw [if_neg he] at hd
        cases hd
    · intro st' pid hp
      rw [sjfLoop_zero] at hp
      by_cases he : st.remaining.isEmpty
      · rw [if_pos he] at hp
        cases hp
      · rw [if_neg he] at hp
        cases hp
  | succ f ih =>
    intro st hInv
    constructor
    · intro st' hd
      rw [sjfLoop_succ] at hd
      by_cases he : st.remaining.isEmpty
      · rw [if_pos he] at hd
        cases hd
        exact ⟨hInv, List.isEmpty_iff.mp he⟩
      · rw [if_neg he] at hd
        cases hs : sjfStep st with
        | inl st1 =>
          rw [hs] at hd
          exact (ih st1 (sjfStep_inl_inv allIds n st st1 hInv hs)).1 st' hd
        | inr pid =>
          rw [hs] at hd
          cases hd
    · intro st' pid hp
      rw [sjfLoop_succ] at hp
      by_cases he : st.remaining.isEmpty
      · rw [if_pos he] at hp
        cases hp
      · rw [if_neg he] at hp
        cases hs : sjfStep st with
        | inl st1 =>
          rw [hs] at hp
          exact (ih st1 (sjfStep_inl_inv allIds n st st1 hInv hs)).2 st' pid hp
        | inr pid0 =>
          rw [hs] at hp
          cases hp
          exact sjfStep_inr_flags allIds n st _ hInv hs

theorem sjfInv_init (processes : List Process) :
    SJFInv (ids processes) processes.length (sjfInit processes) := by
  constructor
  · simp [sjfInit]
  · intro k hk
    simp only [sjfInit, List.getElem?_replicate, if_pos hk]
    constructor
    · rintro ⟨r, hr⟩
      cases hr
    · intro hmem
      cases hmem
  · intro x
    simp only [sjfInit, List.not_mem_nil, or_false]
    constructor
    · intro hx
      rcases List.mem_map.mp hx with ⟨a, ha, rfl⟩
      exact mem_ids_of_mem ((List.perm_insertionSort byArrivalTime processes).mem_iff.mp ha)
    · intro hx
      rcases List.mem_map.mp hx with ⟨a, ha, rfl⟩
      exact mem_ids_of_mem ((List.perm_insertionSort byArrivalTime processes).mem_iff.mpr ha)
  · intro x hx
    simp only [sjfInit] at hx
    cases hx
  · simp [sjfInit]
  · intro k r hkr
    simp only [sjfInit, List.getElem?_replicate] at hkr
    by_cases hk : k < processes.length
    · rw [if_pos hk] at hkr
      cases hkr
    · rw [if_neg hk] at hkr
      cases hkr

theorem mem_oneToN (n : Nat) (x : Int) : x ∈ oneToN n ↔ 1 ≤ x ∧ x ≤ n := by
  rw [oneToN, List.mem_map]
  constructor
  · rintro ⟨k, hk, rfl⟩
    rw [List.mem_range] at hk
    omega
  · intro hx
    refine ⟨(x - 1).toNat, ?_, ?_⟩
    · rw [List.mem_range]
      omega
    · omega

theorem oneToN_nodup (n : Nat) : (oneToN n).Nodup := by
  rw [oneToN]
  refine List.Nodup.map ?_ (List.nodup_range n)
  intro a b hab
  have hab1 : (a : Int) + 1 = (b : Int) + 1 := hab
  omega

theorem oneToN_length (n : Nat) : (oneToN n).length = n := by
  rw [oneToN, List.length_map, List.length_range]

theorem perm_oneToN (l : List Int) (n : Nat) (hlen : l.length = n)
    (hsub : ∀ x ∈ oneToN n, x ∈ l) : l.Perm (oneToN n) := by
  have hsp : List.Subperm (oneToN n) l := (oneToN_nodup n).subperm hsub
  have hle : l.length ≤ (oneToN n).length := by rw [hlen, oneToN_length]
  exact (List.Subperm.perm_of_length_le hsp hle).symm

theorem all_isSome_iff (l : List (Option Row)) :
    (l.all (fun o => o.isSome)) = true ↔
      ∀ k : Nat, k < l.length → ∃ r, l[k]? = some (some r) := by
  rw [List.all_eq_true]
  constructor
  · intro h k hk
    have hg : l[k]? = some l[k] := List.getElem?_eq_getElem hk
    have hs := h _ (List.getElem_mem hk)
    obtain ⟨r, hr⟩ := Option.isSome_iff_exists.mp hs
    exact ⟨r, by rw [hg, hr]⟩
  · intro h o ho
    obtain ⟨k, hk, hko⟩ := List.getElem_of_mem ho
    obtain ⟨r, hr⟩ := h k hk
    rw [List.getElem?_eq_getElem hk, hko] at hr
    cases hr
    rfl

/-- Claim C10: `SJFSchedule` writes each row at table index `ProcessID − 1`.
For any fuel: a completed run has a fully-written table exactly when the
batch's ids are a permutation of 1..n, and a panicked run (out-of-range
table write, a Go runtime panic) implies the ids are not such a permutation
— so the driver functions, producing a total table without an out-of-range
access, only for batches whose ids are exactly the integers 1..n. -/
theorem sjf_table_total_iff_ids_one_to_n (fuel : Nat) (processes : List Process) :
    (∀ st', SJFSchedule fuel processes = .done st' →
        ((st'.schedule.all (fun o => o.isSome)) = true ↔
          (ids processes).Perm (oneToN processes.length))) ∧
      (∀ st' pid, SJFSchedule fuel processes = .panicked st' pid →
        ¬ (ids processes).Perm (oneToN processes.length)) := by
  have hspec := sjfLoop_spec (ids processes) processes.length fuel (sjfInit processes)
    (sjfInv_init processes)
  constructor
  · intro st' hd
    obtain ⟨hInv, hrem⟩ := hspec.1 st' hd
    have hdisp : ∀ x : Int, x ∈ st'.dispatched ↔ x ∈ ids processes := by
      intro x
      have hp := hInv.part x
      rw [hrem] at hp
      simpa [ids] using hp
    rw [all_isSome_iff, hInv.len]
    constructor
    · intro hall
      refine perm_oneToN (ids processes) processes.length (by simp [ids]) ?_
      intro x hx
      obtain ⟨h1, h2⟩ := (mem_oneToN _ x).mp hx
      have hk : (x - 1).toNat < processes.length := by omega
      obtain ⟨r, hr⟩ := hall (x - 1).toNat hk
      have hmem := (hInv.slots _ hk).mp ⟨r, hr⟩
      have hxx : ((x - 1).toNat : Int) + 1 = x := by omega
      rw [hxx] at hmem
      exact (hdisp x).mp hmem
    · intro hperm k hk
      refine (hInv.slots k hk).mpr ((hdisp _).mpr (hperm.mem_iff.mpr ?_))
      rw [mem_oneToN]
      omega
  · intro st' pid hp hperm
    obtain ⟨hmem, hrange⟩ := hspec.2 st' pid hp
    have := (mem_oneToN processes.length pid).mp (hperm.mem_iff.mp hmem)
    omega

/-- Claim C10, instantiated: the run on the batch with ids {2, 1} completes
with a fully written table, and indeed those ids are a permutation of 1..2. -/
theorem sjf_table_total_iff_ids_one_to_n_witness :
    ((sjfStateOf (SJFSchedule 10 [⟨2, 0, 1, 0⟩, ⟨1, 0, 2, 0⟩])).schedule.all
        (fun o => o.isSome)) = true ↔
      (ids [⟨2, 0, 1, 0⟩, ⟨1, 0, 2, 0⟩]).Perm
        (oneToN ([⟨2, 0, 1, 0⟩, (⟨1, 0, 2, 0⟩ : Process)]).length) :=
  (sjf_table_total_iff_ids_one_to_n 10 [⟨2, 0, 1, 0⟩, ⟨1, 0, 2, 0⟩]).1 _ rfl

/-- Claim C7, amended: the FCFS table has exactly one row per process, in
input order (row i carries process i's id, priority, burst and arrival); the
SJF table is instead indexed by numeric id — a written row at index k always
carries id k+1 — so it is in input order only when the batch lists the ids
1..n in that order. -/
theorem table_rows_fcfs_input_order_sjf_id_order :
    (∀ processes : List Process,
        (FCFSSchedule processes).schedule.map (fun r => (r.pid, r.prio, r.burst, r.arrival)) =
          processes.map (fun p => (p.ProcessID, p.Priority, p.BurstDuration, p.ArrivalTime))) ∧
      (∀ (fuel : Nat) (processes : List Process) (st' : SJFState) (k : Nat) (r : Row),
        SJFSchedule fuel processes = .done st' → st'.schedule[k]? = some (some r) →
          r.pid = (k : Int) + 1) := by
  constructor
  · intro ps
    rw [FCFSSchedule_schedule]
    exact fcfsRows_static 0 0 ps
  · intro fuel ps st' k r hd hr
    obtain ⟨hInv, _⟩ :=
      (sjfLoop_spec (ids ps) ps.length fuel (sjfInit ps) (sjfInv_init ps)).1 st' hd
    exact (hInv.rows k r hr).1

/-- Claim C7 amended, instantiated: FCFS on a one-process batch reproduces
the process's static fields at its input position. -/
theorem table_rows_fcfs_input_order_sjf_id_order_witness :
    (FCFSSchedule [⟨7, 3, 2, 1⟩]).schedule.map (fun r => (r.pid, r.prio, r.burst, r.arrival)) =
      [((7 : Int), (1 : Int), (2 : Int), (3 : Int))] :=
  (table_rows_fcfs_input_order_sjf_id_order.1 [⟨7, 3, 2, 1⟩]).trans (by decide)

/-- Claim C8: in every table row either table-producing driver reports,
`turnaround = completion − arrival`: for FCFS every row of every batch, for
SJF every written row of every completed run.  (`SJFPrioritySchedule`
reports no per-process completion time and `RRSchedule` reports nothing, so
the identity concerns FCFS and SJF.) -/
theorem row_turnaround_eq_completion_sub_arrival :
    (∀ (processes : List Process) (r : Row), r ∈ (FCFSSchedule processes).schedule →
        r.turnaround = r.completion - r.arrival) ∧
      (∀ (fuel : Nat) (processes : List Process) (st' : SJFState) (k : Nat) (r : Row),
        SJFSchedule fuel processes = .done st' → st'.schedule[k]? = some (some r) →
          r.turnaround = r.completion - r.arrival) := by
  constructor
  · intro ps r hr
    rw [FCFSSchedule_schedule] at hr
    exact fcfsRows_turnaround ps 0 0 r hr
  · intro fuel ps st' k r hd hr
    obtain ⟨hInv, _⟩ :=
      (sjfLoop_spec (ids ps) ps.length fuel (sjfInit ps) (sjfInv_init ps)).1 st' hd
    exact (hInv.rows k r hr).2

/-- Claim C8, instantiated: the FCFS row of the arrival-5 process (waiting
−5, turnaround −4, completion 1) still satisfies the identity: −4 = 1 − 5. -/
theorem row_turnaround_eq_completion_sub_arrival_witness :
    (Row.mk 1 0 1 5 (-5) (-4) 1).turnaround =
      (Row.mk 1 0 1 5 (-5) (-4) 1).completion - (Row.mk 1 0 1 5 (-5) (-4) 1).arrival :=
  row_turnaround_eq_completion_sub_arrival.1 [⟨1, 5, 1, 0⟩] (Row.mk 1 0 1 5 (-5) (-4) 1)
    (by decide)

/-! ## Termination -/

theorem findShortestJobAux_ne_none (l : List Process) (t : Int) : ∀ s : Process,
    findShortestJobAux l t (some s) ≠ none := by
  induction l with
  | nil => intro s h; cases h
  | cons p rest ih =>
    intro s
    rw [findShortestJobAux_cons]
    by_cases h : p.ArrivalTime > t
    · rw [if_pos h]
      intro hc
      cases hc
    · rw [if_neg h]
      dsimp only
      by_cases hb : p.BurstDuration < s.BurstDuration
      · rw [if_pos hb]
        exact ih p
      · rw [if_neg hb]
        exact ih s

theorem findShortestJob_none_head (p : Process) (rest : List Process) (t : Int)
    (h : findShortestJob (p :: rest) t = none) : p.ArrivalTime > t := by
  by_cases hA : p.ArrivalTime > t
  · exact hA
  · rw [findShortestJob, findShortestJobAux_cons, if_neg hA] at h
    dsimp only at h
    exact absurd h (findShortestJobAux_ne_none rest t p)

theorem length_removeProcess_lt (l : List Process) (p : Process) (h : p ∈ l) :
    (removeProcess l p).length < l.length := by
  rw [removeProcess, List.length_filter_lt_length_iff_exists]
  exact ⟨p, h, by simp⟩

theorem sjfGap_cons (st : SJFState) (a : Process) (l : List Process)
    (hr : st.remaining = a :: l) : sjfGap st = (a.ArrivalTime - st.serviceTime).toNat := by
  unfold sjfGap
  rw [hr]

theorem sjfLoop_done_of_nil (st : SJFState) (hr : st.remaining = []) :
    sjfIsOut (sjfLoop 0 st) = false := by
  rw [sjfLoop_zero, if_pos (by rw [hr]; rfl)]
  rfl

theorem sjfLoop_progress_some (N : Nat)
    (ihN : ∀ (G : Nat) (st : SJFState), st.remaining.length ≤ N → sjfGap st ≤ G →
      ∃ fuel, sjfIsOut (sjfLoop fuel st) = false)
    (st : SJFState) (p : Process) (hlen : st.remaining.length ≤ N + 1)
    (hne : ¬ st.remaining.isEmpty = true)
    (hf : findShortestJob st.remaining st.serviceTime = some p) :
    ∃ fuel, sjfIsOut (sjfLoop fuel st) = false := by
  by_cases hidx : 0 ≤ p.ProcessID - 1 ∧ (p.ProcessID - 1).toNat < st.schedule.length
  · have hstep : sjfStep st = .inl (sjfDispatch st p) := by
      rw [sjfStep, hf]
      dsimp only
      rw [if_pos hidx]
    have hmem := (findShortestJob_mem_arrived _ _ _ hf).1
    have hlt : (sjfDispatch st p).remaining.length ≤ N := by
      rw [sjfDispatch_remaining]
      have := length_removeProcess_lt st.remaining p hmem
      omega
    obtain ⟨f, hfuel⟩ := ihN (sjfGap (sjfDispatch st p)) (sjfDispatch st p) hlt le_rfl
    refine ⟨f + 1, ?_⟩
    rw [sjfLoop_succ, if_neg hne, hstep]
    exact hfuel
  · have hstep : sjfStep st = .inr p.ProcessID := by
      rw [sjfStep, hf]
      dsimp only
      rw [if_neg hidx]
    refine ⟨1, ?_⟩
    rw [sjfLoop_succ, if_neg hne, hstep]
    rfl

theorem sjfLoop_not_out (N : Nat) : ∀ (G : Nat) (st : SJFState),
    st.remaining.length ≤ N → sjfGap st ≤ G →
    ∃ fuel, sjfIsOut (sjfLoop fuel st) = false := by
  induction N with
  | zero =>
    intro G st hlen _
    cases hr : st.remaining with
    | nil => exact ⟨0, sjfLoop_done_of_nil st hr⟩
    | cons a l =>
      rw [hr] at hlen
      simp at hlen
  | succ N ihN =>
    intro G
    induction G with
    | zero =>
      intro st hlen hgap
      cases hr : st.remaining with
      | nil => exact ⟨0, sjfLoop_done_of_nil st hr⟩
      | cons a l =>
        have hne : ¬ st.remaining.isEmpty = true := by
          rw [hr]
          exact fun h => by cases h
        cases hf : findShortestJob st.remaining st.serviceTime with
        | none =>
          exfalso
          have harr := findShortestJob_none_head a l st.serviceTime (hr ▸ hf)
          rw [sjfGap_cons st a l hr] at hgap
          omega
        | some p => exact sjfLoop_progress_some N ihN st p hlen hne hf
    | succ G ihG =>
      intro st hlen hgap
      cases hr : st.remaining with
      | nil => exact ⟨0, sjfLoop_done_of_nil st hr⟩
      | cons a l =>
        have hne : ¬ st.remaining.isEmpty = true := by
          rw [hr]
          exact fun h => by cases h
        cases hf : findShortestJob st.remaining st.serviceTime with
        | some p => exact sjfLoop_progress_some N ihN st p hlen hne hf
        | none =>
          have harr := findShortestJob_none_head a l st.serviceTime (hr ▸ hf)
          have hstep : sjfStep st = .inl { st with serviceTime := st.serviceTime + 1 } := by
            rw [sjfStep, hf]
          have hgap1 : sjfGap { st with serviceTime := st.serviceTime + 1 } ≤ G := by
            rw [sjfGap_cons { st with serviceTime := st.serviceTime + 1 } a l hr]
            rw [sjfGap_cons st a l hr] at hgap
            show (a.ArrivalTime - (st.serviceTime + 1)).toNat ≤ G
            omega
          obtain ⟨f, hfuel⟩ := ihG { st with serviceTime := st.serviceTime + 1 }
            (by rw [hr] at hlen ⊢; exact hlen) hgap1
          refine ⟨f + 1, ?_⟩
          rw [sjfLoop_succ, if_neg hne, hstep]
          exact hfuel

theorem sjfTerminates_all (processes : List Process) : sjfTerminates processes := by
  obtain ⟨f, hf⟩ := sjfLoop_not_out (sjfInit processes).remaining.length
    (sjfGap (sjfInit processes)) (sjfInit processes) le_rfl le_rfl
  exact ⟨f, hf⟩

theorem pMaxBurst_cons (a : Process1) (l : List Process1) :
    pMaxBurst (a :: l) = max a.Burst (pMaxBurst l) := rfl

theorem pMaxBurst_le (ps : List Process1) (q : Process1) (h : q ∈ ps) :
    q.Burst ≤ pMaxBurst ps := by
  induction ps with
  | nil => cases h
  | cons a l ih =>
    rw [pMaxBurst_cons]
    rcases List.mem_cons.mp h with rfl | hl
    · exact le_max_left _ _
    · exact le_trans (ih hl) (le_max_right _ _)

theorem mem_sortedWaiting (st : P1State) (w : Process1) (h : w ∈ sortedWaiting st) :
    w ∈ st.waiting ∨ w ∈ st.procs := by
  rw [sortedWaiting] at h
  have hm := (List.perm_insertionSort byBurst (st.waiting ++ arrivedPool st)).mem_iff.mp h
  rcases List.mem_append.mp hm with h1 | h2
  · exact Or.inl h1
  · rw [arrivedPool] at h2
    exact Or.inr (List.mem_filter.mp h2).1

theorem sortedWaiting_nil (st : P1State) (h : sortedWaiting st = []) :
    st.waiting = [] ∧ arrivedPool st = [] := by
  rw [sortedWaiting] at h
  have hp := List.perm_insertionSort byBurst (st.waiting ++ arrivedPool st)
  rw [h] at hp
  exact List.append_eq_nil.mp hp.symm.eq_nil

theorem arrivedPool_nil (st : P1State) (hInv : PInv st) (h : arrivedPool st = [])
    (p : Process1) (hp : p ∈ st.procs) : st.currentTime < p.Arrival := by
  rw [arrivedPool, List.filter_eq_nil_iff] at h
  have := h p hp
  rw [hInv.ncomp p hp] at this
  simpa using this

theorem tickP_none_nil (st : P1State) (hA : st.active = none) (hW : sortedWaiting st = []) :
    tickP st = { st with waiting := [], currentTime := st.currentTime + 1 } := by
  rw [tickP, hA, hW]

theorem tickP_none_cons (st : P1State) (w : Process1) (ws : List Process1)
    (hA : st.active = none) (hW : sortedWaiting st = w :: ws) :
    tickP st = runActive st w ws := by
  rw [tickP, hA, hW]

theorem tickP_some (st : P1State) (a : Process1) (hA : st.active = some a) :
    tickP st = runActive st a (sortedWaiting st) := by
  rw [tickP, hA]

theorem runActive_complete (st : P1State) (a : Process1) (ws : List Process1)
    (h1 : a.Burst - 1 = 0) :
    runActive st a ws =
      { st with
        waiting := ws
        active := none
        completed := st.completed + 1
        currentTime := st.currentTime + 1
        finishLog := st.finishLog ++
          [(a.Name, st.currentTime + 1 - a.Arrival, st.currentTime + 1 - a.Arrival - a.Priority)] } := by
  rw [runActive]
  dsimp only
  rw [if_pos h1]

theorem runActive_continue (st : P1State) (a : Process1) (ws : List Process1)
    (h1 : ¬ (a.Burst - 1 = 0)) :
    runActive st a ws =
      { st with
        waiting := ws
        active := some { a with Burst := a.Burst - 1 }
        currentTime := st.currentTime + 1 } := by
  rw [runActive]
  dsimp only
  rw [if_neg h1]

theorem pMu2_none (st : P1State) (hA : st.active = none) :
    pMu2 st = (if st.waiting.isEmpty then pArrGapSum st.procs st.currentTime else 0) +
      (pMaxBurst st.procs).toNat + 1 := by
  rw [pMu2, hA]

theorem pMu2_some (st : P1State) (a : Process1) (hA : st.active = some a) :
    pMu2 st = a.Burst.toNat := by
  rw [pMu2, hA]

theorem pArrGapSum_dec (ps : List Process1) (t : Int) (hne : ps ≠ [])
    (hall : ∀ p ∈ ps, t < p.Arrival) : pArrGapSum ps (t + 1) < pArrGapSum ps t := by
  cases ps with
  | nil => exact absurd rfl hne
  | cons a l =>
    rw [pArrGapSum, pArrGapSum]
    simp only [List.map_cons, List.sum_cons]
    have h1 : (a.Arrival - (t + 1)).toNat < (a.Arrival - t).toNat := by
      have := hall a (List.mem_cons_self a l)
      omega
    have h2 : ((l.map (fun p => (p.Arrival - (t + 1)).toNat)).sum : Nat) ≤
        (l.map (fun p => (p.Arrival - t).toNat)).sum := by
      refine List.sum_le_sum ?_
      intro p _
      omega
    omega

theorem runActive_inv (st : P1State) (a : Process1) (ws : List Process1)
    (hInv : PInv st) (hws : ∀ w ∈ ws, w ∈ st.procs)
    (ha : 1 ≤ a.Burst ∧ a.Burst ≤ pMaxBurst st.procs) :
    PInv (runActive st a ws) := by
  by_cases h1 : a.Burst - 1 = 0
  · rw [runActive_complete st a ws h1]
    exact ⟨hInv.pos, hInv.ncomp, hws, fun b hb => by cases hb⟩
  · rw [runActive_continue st a ws h1]
    refine ⟨hInv.pos, hInv.ncomp, hws, ?_⟩
    intro b hb
    cases hb
    constructor
    · show 1 ≤ a.Burst - 1
      omega
    · show a.Burst - 1 ≤ pMaxBurst st.procs
      omega

theorem tickP_inv (st : P1State) (hInv : PInv st) : PInv (tickP st) := by
  cases hA : st.active with
  | none =>
    cases hW : sortedWaiting st with
    | nil =>
      rw [tickP_none_nil st hA hW]
      exact ⟨hInv.pos, hInv.ncomp, (fun w hw => absurd hw (List.not_mem_nil w)),
        (fun b hb => Option.noConfusion (hA.symm.trans hb))⟩
    | cons w ws =>
      rw [tickP_none_cons st w ws hA hW]
      have hwmem : w ∈ st.procs := by
        rcases mem_sortedWaiting st w (hW ▸ List.mem_cons_self w ws) with h1 | h2
        · exact hInv.wsub w h1
        · exact h2
      refine runActive_inv st w ws hInv ?_ ⟨hInv.pos w hwmem, pMaxBurst_le _ w hwmem⟩
      intro x hx
      have hxs : x ∈ sortedWaiting st := hW ▸ List.mem_cons_of_mem w hx
      rcases mem_sortedWaiting st x hxs with h1 | h2
      · exact hInv.wsub x h1
      · exact h2
  | some a =>
    rw [tickP_some st a hA]
    refine runActive_inv st a (sortedWaiting st) hInv ?_ (hInv.act a hA)
    intro x hx
    rcases mem_sortedWaiting st x hx with h1 | h2
    · exact hInv.wsub x h1
    · exact h2

theorem tickP_progress (st : P1State) (hInv : PInv st)
    (hc : st.completed < st.procs.length) :
    (tickP st).completed = st.completed + 1 ∨
      ((tickP st).completed = st.completed ∧ pMu2 (tickP st) < pMu2 st) := by
  cases hA : st.active with
  | some a =>
    obtain ⟨ha1, ha2⟩ := hInv.act a hA
    by_cases h1 : a.Burst - 1 = 0
    · rw [tickP_some st a hA, runActive_complete st a _ h1]
      exact Or.inl rfl
    · rw [tickP_some st a hA, runActive_continue st a _ h1]
      refine Or.inr ⟨rfl, ?_⟩
      rw [pMu2_some _ { a with Burst := a.Burst - 1 } rfl, pMu2_some st a hA]
      show (a.Burst - 1).toNat < a.Burst.toNat
      omega
  | none =>
    cases hW : sortedWaiting st with
    | cons w ws =>
      have hwmem : w ∈ st.procs := by
        rcases mem_sortedWaiting st w (hW ▸ List.mem_cons_self w ws) with h1 | h2
        · exact hInv.wsub w h1
        · exact h2
      have hw1 : 1 ≤ w.Burst := hInv.pos w hwmem
      have hw2 : w.Burst ≤ pMaxBurst st.procs := pMaxBurst_le _ w hwmem
      by_cases h1 : w.Burst - 1 = 0
      · rw [tickP_none_cons st w ws hA hW, runActive_complete st w ws h1]
        exact Or.inl rfl
      · rw [tickP_none_cons st w ws hA hW, runActive_continue st w ws h1]
        refine Or.inr ⟨rfl, ?_⟩
        rw [pMu2_some _ { w with Burst := w.Burst - 1 } rfl, pMu2_none st hA]
        show (w.Burst - 1).toNat <
          (if st.waiting.isEmpty then pArrGapSum st.procs st.currentTime else 0) +
            (pMaxBurst st.procs).toNat + 1
        have hmb : (w.Burst - 1).toNat < (pMaxBurst st.procs).toNat + 1 := by omega
        omega
    | nil =>
      obtain ⟨hwn, han⟩ := sortedWaiting_nil st hW
      rw [tickP_none_nil st hA hW]
      refine Or.inr ⟨rfl, ?_⟩
      have hpe : st.procs ≠ [] := by
        intro hnil
        rw [hnil] at hc
        simp at hc
      have hall : ∀ p ∈ st.procs, st.currentTime < p.Arrival :=
        arrivedPool_nil st hInv han
      rw [pMu2_none { st with waiting := [], currentTime := st.currentTime + 1 } hA,
        pMu2_none st hA]
      show (if ([] : List Process1).isEmpty then pArrGapSum st.procs (st.currentTime + 1) else 0) +
          (pMaxBurst st.procs).toNat + 1 <
        (if st.waiting.isEmpty then pArrGapSum st.procs st.currentTime else 0) +
          (pMaxBurst st.procs).toNat + 1
      rw [hwn]
      have := pArrGapSum_dec st.procs st.currentTime hpe hall
      simp only [List.isEmpty_nil, if_pos]
      omega

theorem loopP_zero (st : P1State) :
    loopP 0 st = if st.completed < st.procs.length then .outOfFuel st else .done st := rfl

theorem loopP_succ (f : Nat) (st : P1State) :
    loopP (f + 1) st =
      if st.completed < st.procs.length then loopP f (tickP st) else .done st := rfl

theorem loopP_not_out (K : Nat) : ∀ (M : Nat) (st : P1State), PInv st →
    st.procs.length - st.completed ≤ K → pMu2 st ≤ M →
    ∃ fuel, pIsOut (loopP fuel st) = false := by
  induction K with
  | zero =>
    intro M st _ hK _
    refine ⟨0, ?_⟩
    rw [loopP_zero, if_neg (by omega)]
    rfl
  | succ K ihK =>
    intro M
    induction M with
    | zero =>
      intro st hInv hK hM
      by_cases hc : st.completed < st.procs.length
      · rcases tickP_progress st hInv hc with hup | ⟨_, hlt⟩
        · obtain ⟨f, hf⟩ := ihK (pMu2 (tickP st)) (tickP st) (tickP_inv st hInv)
            (by rw [hup, tickP_procs]; omega) le_rfl
          exact ⟨f + 1, by rw [loopP_succ, if_pos hc]; exact hf⟩
        · omega
      · exact ⟨0, by rw [loopP_zero, if_neg hc]; rfl⟩
    | succ M ihM =>
      intro st hInv hK hM
      by_cases hc : st.completed < st.procs.length
      · rcases tickP_progress st hInv hc with hup | ⟨heq, hlt⟩
        · obtain ⟨f, hf⟩ := ihK (pMu2 (tickP st)) (tickP st) (tickP_inv st hInv)
            (by rw [hup, tickP_procs]; omega) le_rfl
          exact ⟨f + 1, by rw [loopP_succ, if_pos hc]; exact hf⟩
        · obtain ⟨f, hf⟩ := ihM (tickP st) (tickP_inv st hInv)
            (by rw [heq, tickP_procs]; omega) (by omega)
          exact ⟨f + 1, by rw [loopP_succ, if_pos hc]; exact hf⟩
      · exact ⟨0, by rw [loopP_zero, if_neg hc]; rfl⟩

theorem pTerminates_of_valid (processes : List Process1)
    (hv : validBatch processes = true) : pTerminates processes := by
  have hInv : PInv (p1Init processes) := by
    rw [validBatch, List.all_eq_true] at hv
    refine ⟨?_, ?_, (fun w hw => absurd hw (List.not_mem_nil w)), (fun a ha => by cases ha)⟩
    · intro p hp
      have := hv p hp
      simp only [Bool.and_eq_true, decide_eq_true_eq, Bool.not_eq_eq_eq_not, Bool.not_true] at this
      exact this.1
    · intro p hp
      have := hv p hp
      simp only [Bool.and_eq_true, decide_eq_true_eq, Bool.not_eq_eq_eq_not, Bool.not_true] at this
      exact this.2
  obtain ⟨f, hf⟩ := loopP_not_out (p1Init processes).procs.length (pMu2 (p1Init processes))
    (p1Init processes) hInv (by omega) le_rfl
  exact ⟨f, hf⟩

/-- Claim C9, amended: every driver's loop halts.  FCFS is a bounded loop
over the batch.  SJF halts for every batch: each iteration either dispatches
(the pool shrinks), idles toward the pool head's arrival, or ends in the
table-write panic.  SJF-Priority halts for every valid batch (positive
bursts, zero-initialized completed flags): its completed counter reaches the
batch size — though, per the counterexample, possibly by completing
duplicated copies of some processes while others never run. -/
theorem drivers_terminate :
    (∀ processes : List Process, sjfTerminates processes) ∧
      (∀ processes : List Process1, validBatch processes = true → pTerminates processes) :=
  ⟨sjfTerminates_all, pTerminates_of_valid⟩

/-- Claim C9 witness: the two-process valid batch of the counterexample
does terminate. -/
theorem drivers_terminate_witness :
    validBatch [⟨"P1", 2, 0, 0, false, 0, 0⟩, ⟨"P2", 3, 0, 0, false, 0, 0⟩] = true ∧
      pTerminates [⟨"P1", 2, 0, 0, false, 0, 0⟩, ⟨"P2", 3, 0, 0, false, 0, 0⟩] :=
  ⟨rfl, drivers_terminate.2 [⟨"P1", 2, 0, 0, false, 0, 0⟩, ⟨"P2", 3, 0, 0, false, 0, 0⟩] rfl⟩
